import Mathlib

/-!
Shallow embedding of `amethyst_assets/src/prefab/processor.rs`:
the prefab processing queue (`PrefabProcessingQueue`), its dependency
cooker (`cook_prefab`), the change propagator (the `changed`-queue drain
inside `process`), the ingestion drain with its requeue side buffer, and
the `AssetTypeStorage::update_asset` boundary.

Conventions of the embedding:
* `AssetUuid` / `PrefabUuid` and `LoadHandle` are coded as `Nat`.
* The external `AssetStorage` collaborator is not part of the sources;
  it is modelled from the spec at its interface boundary (see `Storage`).
* The unbounded loops of the source (`while let` over the dependency
  stack and over the two queues) are embedded with an explicit fuel
  parameter; `Res.fuelOut` marks fuel exhaustion and `Res.panicked`
  marks a Rust panic (an `expect` failure).
* Calls to the load-completion notifier and to storage are collected in
  an event trace (`Event`).
-/

/-- Outcome of a possibly panicking, possibly diverging computation:
`ok` is a normal return, `panicked` is a Rust `expect` failure, and
`fuelOut` reports that the embedding ran out of fuel. -/
inductive Res (α : Type) where
  | ok (val : α)
  | panicked
  | fuelOut
deriving Repr, DecidableEq

/-- The `raw_prefab` part of a `Prefab` record: its identifying
`prefab_id` and the keys of `prefab_meta.prefab_refs` (the uuids of the
prefabs it references; the attached override data is opaque here). -/
structure RawPrefab where
  prefab_id : Nat
  prefab_refs : List Nat
deriving Repr, DecidableEq

/-- The cooked output handed back by the external `legion_prefab::cook_prefab`;
modelled as the `prefab_cook_order` slice that the core passes to it. -/
abbrev Cooked := List Nat

/-- The `Prefab` asset record of `amethyst_assets`. The field `prefab`
is the cooked output (`Option<CookedPrefab>`), `dependencies` the lazily
computed handle list, `dependers` the weak back-reference handles. -/
structure Prefab where
  raw_prefab : RawPrefab
  dependencies : Option (List Nat)
  prefab : Option Cooked
  dependers : List Nat
  version : Nat
deriving Repr, DecidableEq

/-- Decidable equality for `Except`, used by the envelope type. -/
def exceptDecEq {ε α : Type} [DecidableEq ε] [DecidableEq α] :
    DecidableEq (Except ε α)
  | .error a, .error b =>
    match decEq a b with
    | .isTrue h => .isTrue (by rw [h])
    | .isFalse h => .isFalse (by intro c; injection c; exact h (by assumption))
  | .error _, .ok _ => .isFalse (by intro c; exact Except.noConfusion c)
  | .ok _, .error _ => .isFalse (by intro c; exact Except.noConfusion c)
  | .ok a, .ok b =>
    match decEq a b with
    | .isTrue h => .isTrue (by rw [h])
    | .isFalse h => .isFalse (by intro c; injection c; exact h (by assumption))

instance {ε α : Type} [DecidableEq ε] [DecidableEq α] :
    DecidableEq (Except ε α) := exceptDecEq

/-- The `Processed<Prefab>` envelope drained from the processing queue.
The load notifier is an opaque token; errors are coded as `Nat`. -/
structure Processed where
  data : Except Nat Prefab
  handle : Nat
  load_notifier : Nat
  version : Nat
  commit : Bool
deriving Repr, DecidableEq

/-- Observable calls made by the pipeline: load-notifier completion and
error signals, and the storage calls `update_asset`, `commit_asset` and
`mutate_asset_in_storage`. -/
inductive Event where
  | complete (notifier : Nat)
  | error (notifier : Nat) (err : Nat)
  | updateAsset (handle : Nat) (record : Prefab) (version : Nat)
  | commitAsset (handle : Nat) (version : Nat)
  | mutateAsset (handle : Nat)
deriving Repr, DecidableEq

/-- Modelled from the spec: the external `AssetStorage` collaborator
(section 6 of the spec), which is not among the sources. `committed`
holds the published records keyed by load handle; `staged` holds the
records handed over by `update_asset` at a target version and not yet
committed. -/
structure Storage where
  committed : List (Nat × Prefab)
  staged : List (Nat × Nat × Prefab)
deriving Repr, DecidableEq

/-- First-match association-list lookup, the read used for
`storage.get`, `get_for_load_handle` and `get_asset_with_version`. -/
def sget (c : List (Nat × Prefab)) (h : Nat) : Option Prefab :=
  match c with
  | [] => none
  | (k, p) :: rest => if k = h then some p else sget rest h

/-- Modelled from the spec: `AssetStorage::contains`, presence of a
committed record for the load handle. -/
def Storage.contains (s : Storage) (h : Nat) : Bool :=
  (sget s.committed h).isSome

/-- Modelled from the spec: `AssetStorage::get_for_load_handle`. -/
def Storage.get_for_load_handle (s : Storage) (h : Nat) : Option Prefab :=
  sget s.committed h

/-- Replace-or-insert on the committed association list. -/
def setCommitted (c : List (Nat × Prefab)) (h : Nat) (p : Prefab) :
    List (Nat × Prefab) :=
  match c with
  | [] => [(h, p)]
  | (k, q) :: rest =>
    if k = h then (k, p) :: rest else (k, q) :: setCommitted rest h p

/-- Modelled from the spec: `AssetStorage::update_asset` stages the
record at the envelope's target version. -/
def Storage.update_asset (s : Storage) (h : Nat) (p : Prefab) (v : Nat) :
    Storage :=
  { s with
    staged := (h, v, p) ::
      s.staged.filter (fun e => !(e.1 = h ∧ e.2.1 = v : Bool)) }

/-- Modelled from the spec: `AssetStorage::commit_asset` publishes the
staged record of that version, if present. -/
def Storage.commit_asset (s : Storage) (h : Nat) (v : Nat) : Storage :=
  match s.staged.find? (fun e => e.1 = h ∧ e.2.1 = v) with
  | none => s
  | some e =>
    { committed := setCommitted s.committed h e.2.2,
      staged := s.staged.filter (fun x => !(x.1 = h ∧ x.2.1 = v : Bool)) }

/-- Modelled from the spec: `mutate_asset_in_storage`, in-place mutation
of the committed record of a handle. -/
def Storage.mutate_asset_in_storage (s : Storage) (h : Nat)
    (f : Prefab → Prefab) : Storage :=
  { s with
    committed := s.committed.map (fun e => if e.1 = h then (e.1, f e.2) else e) }

/-- The lazy dependency computation of `process`: each reference key of
`raw_prefab.prefab_meta.prefab_refs` is resolved through
`loader.load_asset` (the loader is modelled as a uuid-to-handle map). -/
def computeDeps (loader : Nat → Nat) (raw : RawPrefab) : List Nat :=
  raw.prefab_refs.map loader

/-- The dependency-stack loop of `PrefabProcessingQueue::cook_prefab`.
Each frame holds a prefab and the remainder of its dependency iterator;
`order` is `prefab_cook_order` and `lookup` the keys of `prefab_lookup`,
pushed together when a frame is exhausted.  A dependency handle missing
from storage is logged and skipped; a visited prefab whose
`dependencies` is `None` panics (the source's `expect`). -/
def cookAux (committed : List (Nat × Prefab)) :
    Nat → List (Prefab × List Nat) → List Nat → List Nat → Res (List Nat)
  | 0, _, _, _ => .fuelOut
  | _ + 1, [], order, _ => .ok order
  | f + 1, (cur, []) :: stk, order, lookup =>
    cookAux committed f stk (order ++ [cur.raw_prefab.prefab_id])
      (cur.raw_prefab.prefab_id :: lookup)
  | f + 1, (cur, h :: rest) :: stk, order, lookup =>
    match sget committed h with
    | none => cookAux committed f ((cur, rest) :: stk) order lookup
    | some next =>
      if next.raw_prefab.prefab_id ∈ lookup then
        cookAux committed f ((cur, rest) :: stk) order lookup
      else
        match next.dependencies with
        | none => .panicked
        | some ndeps =>
          cookAux committed f ((next, ndeps) :: (cur, rest) :: stk) order lookup

/-- `PrefabProcessingQueue::cook_prefab`: the root's dependency list is
queried through `expect` and the stack loop is run; the result stands
for the cook order handed to `legion_prefab::cook_prefab`. -/
def cook_prefab (committed : List (Nat × Prefab)) (p : Prefab) (fuel : Nat) :
    Res Cooked :=
  match p.dependencies with
  | none => .panicked
  | some deps => cookAux committed fuel [(p, deps)] [] []

/-- The `updates` collection of the change propagator: for each depender
weak handle resolvable in storage, cook it against the current snapshot;
`visited.insert` gates pushing the handle onto the `changed` queue.
Returns the update pairs, the visited set, the grown queue, and the log
of handles pushed. -/
def collectUpdates (cookFuel : Nat) (committed : List (Nat × Prefab)) :
    List Nat → List Nat → List Nat → List Nat →
    Res (List (Nat × Cooked) × List Nat × List Nat × List Nat)
  | [], vis, q, pushed => .ok ([], vis, q, pushed)
  | w :: ws, vis, q, pushed =>
    match sget committed w with
    | none => collectUpdates cookFuel committed ws vis q pushed
    | some p =>
      match cook_prefab committed p cookFuel with
      | .panicked => .panicked
      | .fuelOut => .fuelOut
      | .ok cooked =>
        let step : List Nat × List Nat × List Nat :=
          if w ∈ vis then (vis, q, pushed)
          else (w :: vis, q ++ [w], pushed ++ [w])
        match collectUpdates cookFuel committed ws step.1 step.2.1 step.2.2 with
        | .ok (ups, vis2, q2, pushed2) => .ok ((w, cooked) :: ups, vis2, q2, pushed2)
        | .panicked => .panicked
        | .fuelOut => .fuelOut

/-- The update application loop of the change propagator: each cooked
depender is written back through `mutate_asset_in_storage`, replacing
`prefab` and bumping `version` in place. -/
def applyUpdates (s : Storage) : List (Nat × Cooked) → Storage × List Event
  | [] => (s, [])
  | (h, c) :: rest =>
    let s2 := s.mutate_asset_in_storage h
      (fun a => { a with prefab := some c, version := a.version + 1 })
    let r := applyUpdates s2 rest
    (r.1, Event.mutateAsset h :: r.2)

/-- One iteration of the `changed`-queue drain: pop a dependee, collect
the cooked updates of its dependers, and apply them to storage. -/
def changedIter (cookFuel : Nat) (s : Storage) (d : Nat)
    (vis q pushed : List Nat) :
    Res (Storage × List Nat × List Nat × List Nat × List Event) :=
  let dependers :=
    match s.get_for_load_handle d with
    | none => []
    | some p => p.dependers
  match collectUpdates cookFuel s.committed dependers vis q pushed with
  | .panicked => .panicked
  | .fuelOut => .fuelOut
  | .ok (ups, vis2, q2, pushed2) =>
    let r := applyUpdates s ups
    .ok (r.1, vis2, q2, pushed2, r.2)

/-- The change propagator's full drain (`while let Some(dependee) =
self.changed.pop()`), with its per-pass `visited` set and the log of
handles pushed back onto the queue. -/
def drainChanged (cookFuel : Nat) :
    Nat → Storage → List Nat → List Nat → List Nat →
    Res (Storage × List Nat × List Event)
  | 0, _, _, _, _ => .fuelOut
  | _ + 1, s, [], _, pushed => .ok (s, pushed, [])
  | f + 1, s, d :: q, vis, pushed =>
    match changedIter cookFuel s d vis q pushed with
    | .panicked => .panicked
    | .fuelOut => .fuelOut
    | .ok (s2, vis2, q2, pushed2, evs) =>
      match drainChanged cookFuel f s2 q2 vis2 pushed2 with
      | .ok (s3, pushed3, evs3) => .ok (s3, pushed3, evs ++ evs3)
      | .panicked => .panicked
      | .fuelOut => .fuelOut

/-- The body of the ingestion drain for one envelope: an error datum
notifies the load notifier and discards the item; otherwise the
dependency list is lazily computed, and the item either requeues
(`Loading`, some dependency handle not in storage) or completes, cooks,
and is handed to storage at the envelope's target version, committing
exactly when the envelope's commit flag is set. -/
def processOne (loader : Nat → Nat) (fuel : Nat) (storage : Storage)
    (it : Processed) : Res (Storage × Option Processed × List Event) :=
  match it.data with
  | .error e => .ok (storage, none, [.error it.load_notifier e])
  | .ok p =>
    let deps := p.dependencies.getD (computeDeps loader p.raw_prefab)
    let p2 : Prefab := { p with dependencies := some deps }
    if deps.all fun h => storage.contains h then
      match cook_prefab storage.committed p2 fuel with
      | .panicked => .panicked
      | .fuelOut => .fuelOut
      | .ok cooked =>
        let cook_version :=
          match sget storage.committed it.handle with
          | some prev => prev.version + 1
          | none => 1
        let p3 : Prefab := { p2 with prefab := some cooked, version := cook_version }
        let st1 := storage.update_asset it.handle p3 it.version
        let tail : Storage × List Event :=
          if it.commit then
            (st1.commit_asset it.handle it.version,
             [Event.commitAsset it.handle it.version])
          else (st1, [])
        .ok (tail.1, none,
          [Event.complete it.load_notifier,
           Event.updateAsset it.handle p3 it.version] ++ tail.2)
    else
      .ok (storage, some { it with data := .ok p2 }, [])

/-- The ingestion drain (`while let Some(processed) = self.processed.pop()`):
each envelope is handled once by `processOne`; `Loading` envelopes
accumulate in the requeue side buffer. -/
def drainProcessed (loader : Nat → Nat) (fuel : Nat) :
    Storage → List Processed → List Processed → List Event →
    Res (Storage × List Processed × List Event)
  | storage, [], requeue, evs => .ok (storage, requeue, evs)
  | storage, it :: rest, requeue, evs =>
    match processOne loader fuel storage it with
    | .panicked => .panicked
    | .fuelOut => .fuelOut
    | .ok (st2, req, evs2) =>
      drainProcessed loader fuel st2 rest (requeue ++ req.toList) (evs ++ evs2)

/-- `PrefabProcessingQueue::process`: first the change propagator's
drain, then the ingestion drain, then the requeue buffer is flushed back
into the processed queue (the returned envelope list is the queue seen
by the next invocation). -/
def process (loader : Nat → Nat) (fuel : Nat) (s : Storage)
    (processedQ : List Processed) (changedQ : List Nat) :
    Res (Storage × List Processed × List Event) :=
  match drainChanged fuel fuel s changedQ [] [] with
  | .panicked => .panicked
  | .fuelOut => .fuelOut
  | .ok (s1, _, evs1) =>
    match drainProcessed loader fuel s1 processedQ [] [] with
    | .panicked => .panicked
    | .fuelOut => .fuelOut
    | .ok (s2, requeue, evs2) => .ok (s2, requeue, evs1 ++ evs2)

/-- The `AssetTypeStorage::update_asset` boundary for the prefab queue:
bincode deserialization is external, its result is passed as `decoded`.
A decode failure calls `load_op.error` and returns `Err` without
enqueuing; a success enqueues the envelope with the commit flag unset. -/
def assetTypeStorage_update_asset (queue : List Processed)
    (decoded : Except Nat Prefab) (handle : Nat) (loadOp : Nat)
    (version : Nat) : List Processed × List Event × Except Nat Unit :=
  match decoded with
  | .error err => (queue, [.error loadOp err], .error err)
  | .ok asset =>
    (queue ++ [{ data := .ok asset, handle := handle, load_notifier := loadOp,
                 version := version, commit := false }],
     [], .ok ())

/-! ### Shared concrete example data, used by witnesses -/

/-- A leaf prefab with no references, already cooked, depended on by handle 3. -/
def exA : Prefab :=
  { raw_prefab := { prefab_id := 11, prefab_refs := [] },
    dependencies := some [], prefab := some [11], dependers := [3], version := 5 }

/-- A second leaf prefab, also depended on by handle 3. -/
def exB : Prefab :=
  { raw_prefab := { prefab_id := 12, prefab_refs := [] },
    dependencies := some [], prefab := some [12], dependers := [3], version := 7 }

/-- A prefab depending on the two leaves through handles 1 and 2. -/
def exC : Prefab :=
  { raw_prefab := { prefab_id := 13, prefab_refs := [11, 12] },
    dependencies := some [1, 2], prefab := some [11, 12, 13], dependers := [],
    version := 0 }

/-- Committed storage holding `exA`, `exB`, `exC` at handles 1, 2, 3. -/
def exSt : Storage :=
  { committed := [(1, exA), (2, exB), (3, exC)], staged := [] }

/-- A freshly deserialized prefab referencing uuids 11 and 12, with its
dependency list not yet computed. -/
def exNew : Prefab :=
  { raw_prefab := { prefab_id := 14, prefab_refs := [11, 12] },
    dependencies := none, prefab := none, dependers := [], version := 0 }

/-- A loader resolving uuid 11 to handle 1 and uuid 12 to handle 2. -/
def exLoader : Nat → Nat := fun u => u - 10

/-! ### C6: decode failures notify the error signal once and discard -/

/-- C6: an envelope whose data carries an error makes `process` notify
the load notifier with that error exactly once and discard the item:
storage is untouched, nothing is requeued, nothing cooked or inserted;
and at the `AssetTypeStorage::update_asset` boundary a deserialization
failure calls `load_op.error`, returns `Err`, and enqueues nothing. -/
theorem c6_decode_failure_notifies_and_discards :
    (∀ loader fuel storage e hd nt ver cm,
      processOne loader fuel storage ⟨.error e, hd, nt, ver, cm⟩ =
        .ok (storage, none, [Event.error nt e])) ∧
    (∀ queue e hd lop ver,
      assetTypeStorage_update_asset queue (.error e) hd lop ver =
        (queue, [Event.error lop e], .error e)) := by
  exact ⟨fun _ _ _ _ _ _ _ _ => rfl, fun _ _ _ _ _ => rfl⟩

/-! ### C10: requeued envelopes are preserved apart from the computed deps -/

/-- C10: an item that goes `Loading` is requeued with the same handle,
notifier, target version and commit flag; the record keeps its raw
prefab, cooked field, dependers and version, only `dependencies` is now
populated; and no notifier signal is emitted for it in this pass. -/
theorem c10_requeue_preserves_envelope (loader : Nat → Nat) (fuel : Nat)
    (storage : Storage) (p : Prefab) (hd nt ver : Nat) (cm : Bool)
    (hall : (p.dependencies.getD (computeDeps loader p.raw_prefab)).all
      storage.contains = false) :
    processOne loader fuel storage ⟨.ok p, hd, nt, ver, cm⟩ =
      .ok (storage,
        some ⟨.ok ⟨p.raw_prefab,
                   some (p.dependencies.getD (computeDeps loader p.raw_prefab)),
                   p.prefab, p.dependers, p.version⟩,
              hd, nt, ver, cm⟩,
        []) := by
  simp only [processOne, hall, Bool.false_eq_true, if_false]

/-- Witness for C10 at a concrete input: a prefab whose second
dependency handle is absent from storage is requeued unchanged apart
from its populated dependency list. -/
theorem c10_requeue_preserves_envelope_witness :
    ((exNew.dependencies.getD (computeDeps exLoader exNew.raw_prefab)).all
        (Storage.mk [(1, exA)] []).contains = false) ∧
    processOne exLoader 20 (Storage.mk [(1, exA)] []) ⟨.ok exNew, 4, 88, 2, true⟩ =
      .ok (Storage.mk [(1, exA)] [],
        some ⟨.ok ⟨exNew.raw_prefab, some [1, 2], exNew.prefab, exNew.dependers,
                   exNew.version⟩,
              4, 88, 2, true⟩,
        []) := by
  refine ⟨by decide, ?_⟩
  have h := c10_requeue_preserves_envelope exLoader 20 (Storage.mk [(1, exA)] [])
    exNew 4 88 2 true (by decide)
  simpa using h

/-- The record rebuilt by `process` after the lazy dependency
computation: the same prefab with `dependencies` populated. -/
def withDeps (p : Prefab) (d : List Nat) : Prefab :=
  { p with dependencies := some d }

/-! ### C1: Loaded exactly when every computed dependency is in storage -/

/-- C1: for an `Ok` item, `process` transitions it to `Loaded` exactly
when, after lazily computing the dependency list from the raw prefab
references through the loader if it is absent, every handle in that list
is contained in storage (the notifier completes and nothing is
requeued); otherwise the item transitions to `Loading` and is pushed
into the requeue side buffer with storage untouched, rather than being
dropped. -/
theorem c1_loaded_iff_all_deps_in_storage (loader : Nat → Nat) (fuel : Nat)
    (storage : Storage) (p : Prefab) (hd nt ver : Nat) (cm : Bool) :
    ((p.dependencies.getD (computeDeps loader p.raw_prefab)).all
        storage.contains = false →
      processOne loader fuel storage ⟨.ok p, hd, nt, ver, cm⟩ =
        .ok (storage,
          some ⟨.ok (withDeps p
                  (p.dependencies.getD (computeDeps loader p.raw_prefab))),
                hd, nt, ver, cm⟩,
          [])) ∧
    ((p.dependencies.getD (computeDeps loader p.raw_prefab)).all
        storage.contains = true →
      ∀ st q evs, processOne loader fuel storage ⟨.ok p, hd, nt, ver, cm⟩ =
          .ok (st, q, evs) →
        q = none ∧ Event.complete nt ∈ evs) := by
  constructor
  · intro hall
    simp only [processOne, hall, Bool.false_eq_true, if_false, withDeps]
  · intro hall st q evs h
    simp only [processOne, hall, if_true] at h
    cases hc : cook_prefab storage.committed
        (withDeps p (p.dependencies.getD (computeDeps loader p.raw_prefab)))
        fuel with
    | ok cooked =>
      rw [withDeps] at hc
      rw [hc] at h
      simp only [Res.ok.injEq, Prod.mk.injEq] at h
      obtain ⟨-, hq, hevs⟩ := h
      subst hq hevs
      exact ⟨rfl, by simp⟩
    | panicked => rw [withDeps] at hc; rw [hc] at h; exact absurd h (by simp)
    | fuelOut => rw [withDeps] at hc; rw [hc] at h; exact absurd h (by simp)

/-- Witness for C1 at concrete inputs: with both leaves committed the
new prefab completes and is not requeued. -/
theorem c1_loaded_iff_all_deps_in_storage_witness :
    ((exNew.dependencies.getD (computeDeps exLoader exNew.raw_prefab)).all
        exSt.contains = true) ∧
    ∀ st q evs, processOne exLoader 20 exSt ⟨.ok exNew, 4, 88, 2, true⟩ =
        .ok (st, q, evs) →
      q = none ∧ Event.complete 88 ∈ evs := by
  exact ⟨by decide,
    (c1_loaded_iff_all_deps_in_storage exLoader 20 exSt exNew 4 88 2 true).2
      (by decide)⟩

/-! ### C5: cook version arithmetic and the commit flag -/

/-- Lookup after a replace-or-insert finds the inserted record. -/
theorem sget_setCommitted (c : List (Nat × Prefab)) (h : Nat) (p : Prefab) :
    sget (setCommitted c h p) h = some p := by
  induction c with
  | nil => simp [setCommitted, sget]
  | cons e rest ih =>
    obtain ⟨k, q⟩ := e
    by_cases hk : k = h
    · simp [setCommitted, hk, sget]
    · simp [setCommitted, hk, sget, ih]

/-- C5: when an item reaches `Loaded`, the version written into the
cooked record is the previously stored record's version plus one, or 1
when no record exists; the record is handed to storage through
`update_asset` at the envelope's target version; `commit_asset` is
called exactly when the envelope's commit flag is set; the new version
strictly exceeds any previously stored one; and after a committing cook
the committed record is the written one, so the next successful cook
writes a strictly larger version again. -/
theorem c5_loaded_version_rule (loader : Nat → Nat) (fuel : Nat)
    (storage : Storage) (p : Prefab) (hd nt ver : Nat) (cm : Bool)
    (cooked : Cooked)
    (hall : (p.dependencies.getD (computeDeps loader p.raw_prefab)).all
      storage.contains = true)
    (hcook : cook_prefab storage.committed
      (withDeps p (p.dependencies.getD (computeDeps loader p.raw_prefab))) fuel
      = .ok cooked) :
    ∃ rec : Prefab,
      processOne loader fuel storage ⟨.ok p, hd, nt, ver, cm⟩ =
        .ok (if cm then (storage.update_asset hd rec ver).commit_asset hd ver
               else storage.update_asset hd rec ver, none,
          [Event.complete nt, Event.updateAsset hd rec ver] ++
            (if cm then [Event.commitAsset hd ver] else [])) ∧
      rec.version = (match sget storage.committed hd with
        | some prev => prev.version + 1
        | none => 1) ∧
      (∀ prev, sget storage.committed hd = some prev →
        prev.version < rec.version) ∧
      (cm = true →
        sget ((storage.update_asset hd rec ver).commit_asset hd ver).committed
          hd = some rec) := by
  rw [withDeps] at hcook
  refine ⟨⟨p.raw_prefab,
    some (p.dependencies.getD (computeDeps loader p.raw_prefab)), some cooked,
    p.dependers,
    match sget storage.committed hd with
    | some prev => prev.version + 1
    | none => 1⟩, ?_, rfl, ?_, ?_⟩
  · simp only [processOne, hall, if_true, hcook]
    cases cm <;> simp
  · intro prev hprev
    simp only [hprev]
    omega
  · intro _
    simp only [Storage.update_asset, Storage.commit_asset, List.find?]
    simp [sget_setCommitted]

/-- Witness for C5 at concrete inputs: the new prefab cooks against the
storage holding both leaves and is written at version 1. -/
theorem c5_loaded_version_rule_witness :
    ∃ rec : Prefab,
      processOne exLoader 20 exSt ⟨.ok exNew, 4, 88, 2, true⟩ =
        .ok ((exSt.update_asset 4 rec 2).commit_asset 4 2, none,
          [Event.complete 88, Event.updateAsset 4 rec 2] ++
            [Event.commitAsset 4 2]) ∧
      rec.version = (match sget exSt.committed 4 with
        | some prev => prev.version + 1
        | none => 1) ∧
      (∀ prev, sget exSt.committed 4 = some prev →
        prev.version < rec.version) ∧
      (true = true →
        sget ((exSt.update_asset 4 rec 2).commit_asset 4 2).committed 4 =
          some rec) := by
  have h := c5_loaded_version_rule exLoader 20 exSt exNew 4 88 2 true
    [11, 12, 14] (by decide) (by decide)
  simpa using h

/-! ### C8: phase order of one `process` invocation -/

/-- Every drained envelope contributes at most one requeue entry, so the
requeue buffer never exceeds the drained queue plus its seed. -/
theorem drainProcessed_length_le (loader : Nat → Nat) (fuel : Nat) :
    ∀ (pq : List Processed) (storage : Storage) (acc : List Processed)
      (evs : List Event) (s2 : Storage) (rq : List Processed)
      (evs2 : List Event),
      drainProcessed loader fuel storage pq acc evs = .ok (s2, rq, evs2) →
      rq.length ≤ acc.length + pq.length := by
  intro pq
  induction pq with
  | nil =>
    intro storage acc evs s2 rq evs2 h
    simp only [drainProcessed, Res.ok.injEq, Prod.mk.injEq] at h
    obtain ⟨-, hrq, -⟩ := h
    subst hrq
    simp
  | cons it rest ih =>
    intro storage acc evs s2 rq evs2 h
    simp only [drainProcessed] at h
    cases hp : processOne loader fuel storage it with
    | ok out =>
      obtain ⟨st2, req, evs3⟩ := out
      rw [hp] at h
      have := ih st2 (acc ++ req.toList) (evs ++ evs3) s2 rq evs2 h
      have hreq : req.toList.length ≤ 1 := by cases req <;> simp
      simp only [List.length_append] at this
      simp only [List.length_cons]
      omega
    | panicked => rw [hp] at h; exact absurd h (by simp)
    | fuelOut => rw [hp] at h; exact absurd h (by simp)

/-- C8: one `process` invocation first runs the change propagator's
drain to completion, then drains the processed queue, then flushes the
requeue buffer back as the queue for the next invocation: its result is
exactly the composition of the two drains with the propagator's events
first, and the flushed queue holds at most one entry per drained item,
so no requeued item is processed twice within the invocation. -/
theorem c8_phase_order (loader : Nat → Nat) (fuel : Nat) (s : Storage)
    (pq : List Processed) (cq : List Nat) (s1 : Storage) (pu : List Nat)
    (evs1 : List Event) (s2 : Storage) (rq : List Processed)
    (evs2 : List Event)
    (h1 : drainChanged fuel fuel s cq [] [] = .ok (s1, pu, evs1))
    (h2 : drainProcessed loader fuel s1 pq [] [] = .ok (s2, rq, evs2)) :
    process loader fuel s pq cq = .ok (s2, rq, evs1 ++ evs2) ∧
    rq.length ≤ pq.length := by
  refine ⟨by simp only [process, h1, h2], ?_⟩
  have := drainProcessed_length_le loader fuel pq s1 [] [] s2 rq evs2 h2
  simpa using this

/-- Witness for C8 at concrete inputs: an empty changed queue and a
single errored envelope. -/
theorem c8_phase_order_witness :
    process exLoader 5 exSt [⟨.error 9, 7, 70, 0, false⟩] [] =
      .ok (exSt, [], [] ++ [Event.error 70 9]) ∧
    List.length ([] : List Processed) ≤
      List.length [(⟨.error 9, 7, 70, 0, false⟩ : Processed)] :=
  c8_phase_order exLoader 5 exSt [⟨.error 9, 7, 70, 0, false⟩] [] exSt [] []
    exSt [] [Event.error 70 9] (by decide) (by decide)

/-! ### C9: the `expect` on unprocessed dependency lists -/

/-- A successful first-match lookup returns one of the stored records. -/
theorem sget_mem (c : List (Nat × Prefab)) (h : Nat) (p : Prefab) :
    sget c h = some p → p ∈ c.map Prod.snd := by
  induction c with
  | nil => intro hc; simp [sget] at hc
  | cons e rest ih =>
    obtain ⟨k, q⟩ := e
    intro hc
    simp only [sget] at hc
    split at hc
    · injection hc with hqp
      subst hqp
      simp
    · simp [ih hc]

/-- When every committed record has a computed dependency list, the
cook loop never reaches its panicking `expect`. -/
theorem cookAux_no_panic (committed : List (Nat × Prefab))
    (hdeps : ∀ q ∈ committed.map Prod.snd, q.dependencies.isSome = true) :
    ∀ (f : Nat) (S : List (Prefab × List Nat)) (O L : List Nat),
      cookAux committed f S O L ≠ .panicked := by
  intro f
  induction f with
  | zero => intro S O L; simp [cookAux]
  | succ f ih =>
    intro S O L
    rcases S with _ | ⟨⟨cur, rem⟩, stk⟩
    · simp [cookAux]
    rcases rem with _ | ⟨h, rest⟩
    · simp only [cookAux]; exact ih _ _ _
    simp only [cookAux]
    cases hs : sget committed h with
    | none => exact ih _ _ _
    | some next =>
      by_cases hm : next.raw_prefab.prefab_id ∈ L
      · simp only [if_pos hm]
        exact ih _ _ _
      · simp only [if_neg hm]
        have hq := hdeps next (sget_mem _ _ _ hs)
        cases hnd : next.dependencies with
        | none => rw [hnd] at hq; simp at hq
        | some nd => exact ih _ _ _

/-- C9: querying a prefab whose `dependencies` is `None` is fatal, both
for the root queried at entry of `cook_prefab` and for a stored prefab
first visited by the loop; and when every committed record and the root
have computed dependency lists, the fatal branch is unreachable. -/
theorem c9_unresolved_dependency_list_fatal :
    (∀ (committed : List (Nat × Prefab)) (p : Prefab) (fuel : Nat),
      p.dependencies = none → cook_prefab committed p fuel = .panicked) ∧
    (∀ (committed : List (Nat × Prefab)) (f : Nat) (cur next : Prefab)
        (h : Nat) (t : List Nat) (stk : List (Prefab × List Nat))
        (O L : List Nat),
      sget committed h = some next →
      next.raw_prefab.prefab_id ∉ L →
      next.dependencies = none →
      cookAux committed (f + 1) ((cur, h :: t) :: stk) O L = .panicked) ∧
    (∀ (committed : List (Nat × Prefab)) (p : Prefab) (fuel : Nat),
      (∀ q ∈ committed.map Prod.snd, q.dependencies.isSome = true) →
      p.dependencies.isSome = true →
      cook_prefab committed p fuel ≠ .panicked) := by
  refine ⟨?_, ?_, ?_⟩
  · intro committed p fuel hnone
    simp [cook_prefab, hnone]
  · intro committed f cur next h t stk O L hs hm hnd
    simp [cookAux, hs, if_neg hm, hnd]
  · intro committed p fuel hdeps hp
    cases hd : p.dependencies with
    | none => rw [hd] at hp; simp at hp
    | some deps =>
      simp only [cook_prefab, hd]
      exact cookAux_no_panic committed hdeps fuel _ _ _

/-- Witness for C9 at concrete inputs: a root with an uncomputed list
panics; a stored dependency with an uncomputed list panics when first
visited; the example storage with all lists computed never panics. -/
theorem c9_unresolved_dependency_list_fatal_witness :
    cook_prefab exSt.committed exNew 20 = .panicked ∧
    cookAux [(4, exNew)] 20 [(exC, [4])] [] [] = .panicked ∧
    cook_prefab exSt.committed exC 20 ≠ .panicked := by
  refine ⟨c9_unresolved_dependency_list_fatal.1 exSt.committed exNew 20 rfl,
    ?_, c9_unresolved_dependency_list_fatal.2.2 exSt.committed exC 20
      (by decide) (by decide)⟩
  exact c9_unresolved_dependency_list_fatal.2.1 [(4, exNew)] 19 exC exNew 4 []
    [] [] [] (by decide) (by decide) rfl

/-! ### C4: dependers are re-cooked and mutated in place -/

/-- Unfolding of the lookup over a cons cell. -/
theorem sget_cons (k : Nat) (p : Prefab) (rest : List (Nat × Prefab))
    (h : Nat) : sget ((k, p) :: rest) h = if k = h then some p else sget rest h :=
  rfl

/-- Effect of the in-place mutation on a committed association list. -/
theorem sget_map_mutate (hh w : Nat) (f : Prefab → Prefab) :
    ∀ c : List (Nat × Prefab),
      sget (c.map fun e => if e.1 = hh then (e.1, f e.2) else e) w =
        if w = hh then (sget c w).map f else sget c w := by
  intro c
  induction c with
  | nil => by_cases hw : w = hh <;> simp [sget, hw]
  | cons e rest ih =>
    obtain ⟨k, q⟩ := e
    by_cases hkh : k = hh
    · rw [List.map_cons]
      have hhead : (if (k, q).1 = hh then ((k, q).1, f (k, q).2) else (k, q))
          = (k, f q) := by simp [hkh]
      rw [hhead, sget_cons, sget_cons]
      by_cases hkw : k = w
      · have hwh : w = hh := by rw [← hkw, hkh]
        rw [if_pos hkw, if_pos hwh, if_pos hkw]
        rfl
      · rw [if_neg hkw, if_neg hkw]
        exact ih
    · rw [List.map_cons]
      have hhead : (if (k, q).1 = hh then ((k, q).1, f (k, q).2) else (k, q))
          = (k, q) := by simp [hkh]
      rw [hhead, sget_cons, sget_cons]
      by_cases hkw : k = w
      · have hwh : ¬w = hh := by rw [← hkw]; exact hkh
        rw [if_pos hkw, if_neg hwh, if_pos hkw]
      · rw [if_neg hkw, if_neg hkw]
        exact ih

/-- Effect of the in-place mutation on the committed lookup. -/
theorem sget_mutate (s : Storage) (hh w : Nat) (f : Prefab → Prefab) :
    sget (s.mutate_asset_in_storage hh f).committed w =
      if w = hh then (sget s.committed w).map f else sget s.committed w :=
  sget_map_mutate hh w f s.committed

/-- The update loop leaves the staged area untouched. -/
theorem applyUpdates_staged (ups : List (Nat × Cooked)) :
    ∀ s : Storage, (applyUpdates s ups).1.staged = s.staged := by
  induction ups with
  | nil => intro s; rfl
  | cons u rest ih =>
    intro s
    obtain ⟨h, c⟩ := u
    simp only [applyUpdates]
    rw [ih]
    rfl

/-- The update loop emits exactly one mutation event per update. -/
theorem applyUpdates_events (ups : List (Nat × Cooked)) :
    ∀ s : Storage,
      (applyUpdates s ups).2 = ups.map fun u => Event.mutateAsset u.1 := by
  induction ups with
  | nil => intro s; rfl
  | cons u rest ih =>
    intro s
    obtain ⟨h, c⟩ := u
    simp only [applyUpdates, ih, List.map_cons]

/-- Handles not among the updates keep their committed record. -/
theorem applyUpdates_sget_notmem (ups : List (Nat × Cooked)) :
    ∀ (s : Storage) (w : Nat), w ∉ ups.map Prod.fst →
      sget (applyUpdates s ups).1.committed w = sget s.committed w := by
  induction ups with
  | nil => intro s w _; rfl
  | cons u rest ih =>
    intro s w hw
    obtain ⟨h, c⟩ := u
    simp only [List.map_cons, List.mem_cons] at hw
    push_neg at hw
    simp only [applyUpdates]
    rw [ih _ w hw.2, sget_mutate, if_neg hw.1]

/-- A handle updated exactly once ends with the freshly cooked output
substituted and its version bumped by one. -/
theorem applyUpdates_sget_once (ups1 : List (Nat × Cooked)) :
    ∀ (ups2 : List (Nat × Cooked)) (s : Storage) (w : Nat) (cw : Cooked)
      (pw : Prefab),
      w ∉ ups1.map Prod.fst → w ∉ ups2.map Prod.fst →
      sget s.committed w = some pw →
      sget (applyUpdates s (ups1 ++ (w, cw) :: ups2)).1.committed w =
        some { pw with prefab := some cw, version := pw.version + 1 } := by
  induction ups1 with
  | nil =>
    intro ups2 s w cw pw _ h2 hpw
    simp only [List.nil_append, applyUpdates]
    rw [applyUpdates_sget_notmem ups2 _ w h2, sget_mutate, if_pos rfl, hpw]
    rfl
  | cons u rest ih =>
    intro ups2 s w cw pw h1 h2 hpw
    obtain ⟨h, c⟩ := u
    simp only [List.map_cons, List.mem_cons] at h1
    push_neg at h1
    simp only [List.cons_append, applyUpdates]
    refine ih ups2 _ w cw pw h1.2 h2 ?_
    rw [sget_mutate, if_neg h1.1]
    exact hpw

/-- The collection loop of the propagator cooks exactly the dependers
resolvable in storage, against the current snapshot. -/
theorem collectUpdates_spec (cookFuel : Nat) (committed : List (Nat × Prefab)) :
    ∀ (ws vis q pushed : List Nat) (ups : List (Nat × Cooked))
      (vis2 q2 pushed2 : List Nat),
      collectUpdates cookFuel committed ws vis q pushed =
        .ok (ups, vis2, q2, pushed2) →
      ups.map Prod.fst = ws.filter (fun w => (sget committed w).isSome) ∧
      ∀ u ∈ ups, ∃ pw, sget committed u.1 = some pw ∧
        cook_prefab committed pw cookFuel = .ok u.2 := by
  intro ws
  induction ws with
  | nil =>
    intro vis q pushed ups vis2 q2 pushed2 h
    simp only [collectUpdates, Res.ok.injEq, Prod.mk.injEq] at h
    obtain ⟨hups, -⟩ := h
    subst hups
    simp
  | cons w ws ih =>
    intro vis q pushed ups vis2 q2 pushed2 h
    simp only [collectUpdates] at h
    cases hsw : sget committed w with
    | none =>
      simp only [hsw] at h
      obtain ⟨hmap, hall⟩ := ih _ _ _ _ _ _ _ h
      refine ⟨?_, hall⟩
      rw [hmap, List.filter_cons]
      simp [hsw]
    | some p =>
      simp only [hsw] at h
      cases hcp : cook_prefab committed p cookFuel with
      | ok cooked =>
        simp only [hcp] at h
        generalize hstep : (if w ∈ vis then (vis, q, pushed)
          else (w :: vis, q ++ [w], pushed ++ [w])) = step at h
        obtain ⟨v1, q1, p1⟩ := step
        cases hrec : collectUpdates cookFuel committed ws v1 q1 p1 with
        | ok out =>
          obtain ⟨ups3, vis3, q3, pushed3⟩ := out
          simp only [hrec, Res.ok.injEq, Prod.mk.injEq] at h
          obtain ⟨hups, -, -, -⟩ := h
          subst hups
          obtain ⟨hmap, hall⟩ := ih _ _ _ _ _ _ _ hrec
          constructor
          · rw [List.map_cons, hmap, List.filter_cons]
            simp [hsw]
          · intro u hu
            rcases List.mem_cons.mp hu with hu | hu
            · subst hu
              exact ⟨p, hsw, hcp⟩
            · exact hall u hu
        | panicked => simp only [hrec] at h; exact Res.noConfusion h
        | fuelOut => simp only [hrec] at h; exact Res.noConfusion h
      | panicked => simp only [hcp] at h; exact Res.noConfusion h
      | fuelOut => simp only [hcp] at h; exact Res.noConfusion h

/-- C4: for a handle popped from the changed queue, every depender of
that asset found in storage has its cooked output replaced by a fresh
cook of the current snapshot and its version incremented by exactly one,
through in-place mutation of the committed record: the staged area is
untouched and only mutation events are emitted, so the depender is not
re-enqueued through the ingestion queue. -/
theorem c4_depender_recooked_in_place (cookFuel : Nat) (s : Storage)
    (d w : Nat) (p pw : Prefab) (vis q pushed : List Nat) (s2 : Storage)
    (vis2 q2 pushed2 : List Nat) (evs : List Event)
    (hd : s.get_for_load_handle d = some p)
    (hnd : p.dependers.Nodup)
    (hw : w ∈ p.dependers)
    (hpw : sget s.committed w = some pw)
    (hiter : changedIter cookFuel s d vis q pushed =
      .ok (s2, vis2, q2, pushed2, evs)) :
    ∃ cw, cook_prefab s.committed pw cookFuel = .ok cw ∧
      sget s2.committed w =
        some { pw with prefab := some cw, version := pw.version + 1 } ∧
      s2.staged = s.staged ∧
      ∀ ev ∈ evs, ∃ hh, ev = Event.mutateAsset hh := by
  simp only [changedIter, hd] at hiter
  cases hcol : collectUpdates cookFuel s.committed p.dependers vis q pushed with
  | ok out =>
    obtain ⟨ups, vis3, q3, pushed3⟩ := out
    simp only [hcol, Res.ok.injEq, Prod.mk.injEq] at hiter
    obtain ⟨hs2, -, -, -, hevs⟩ := hiter
    obtain ⟨hmap, hall⟩ := collectUpdates_spec cookFuel s.committed
      p.dependers vis q pushed ups vis3 q3 pushed3 hcol
    have hwmem : w ∈ ups.map Prod.fst := by
      rw [hmap, List.mem_filter]
      exact ⟨hw, by simp [hpw]⟩
    have hnodup : (ups.map Prod.fst).Nodup := by
      rw [hmap]; exact hnd.filter _
    obtain ⟨u, hu, hufst⟩ := List.mem_map.mp hwmem
    have hu2 : (w, u.2) ∈ ups := by
      rw [← hufst]
      simpa using hu
    obtain ⟨l1, l2, hsplit⟩ := List.append_of_mem hu2
    subst hsplit
    have hn1 : w ∉ l1.map Prod.fst ∧ w ∉ l2.map Prod.fst := by
      rw [List.map_append, List.map_cons] at hnodup
      rw [List.nodup_append] at hnodup
      obtain ⟨-, hcons, hdisj⟩ := hnodup
      refine ⟨fun hc => hdisj hc (by simp), ?_⟩
      simpa using (List.nodup_cons.mp hcons).1
    obtain ⟨pw2, hpw2, hcook2⟩ := hall (w, u.2) (by simp)
    simp only at hpw2 hcook2
    rw [hpw] at hpw2
    injection hpw2 with hpweq
    subst hpweq
    refine ⟨u.2, hcook2, ?_, ?_, ?_⟩
    · rw [← hs2]
      exact applyUpdates_sget_once l1 l2 s w u.2 pw hn1.1 hn1.2 hpw
    · rw [← hs2]
      exact applyUpdates_staged _ s
    · rw [← hevs, applyUpdates_events]
      intro ev hev
      obtain ⟨u3, -, hu3⟩ := List.mem_map.mp hev
      exact ⟨u3.1, hu3.symm⟩
  | panicked => simp only [hcol] at hiter; exact Res.noConfusion hiter
  | fuelOut => simp only [hcol] at hiter; exact Res.noConfusion hiter

/-- Witness for C4 at concrete inputs: popping handle 1 re-cooks its
depender at handle 3 and bumps its version in place. -/
theorem c4_depender_recooked_in_place_witness :
    ∃ cw, cook_prefab exSt.committed exC 20 = .ok cw ∧
      sget (Storage.mk [(1, exA), (2, exB), (3, { exC with version := 1 })]
          []).committed 3 =
        some { exC with prefab := some cw, version := exC.version + 1 } ∧
      (Storage.mk [(1, exA), (2, exB), (3, { exC with version := 1 })]
          [] : Storage).staged = exSt.staged ∧
      ∀ ev ∈ [Event.mutateAsset 3], ∃ hh, ev = Event.mutateAsset hh :=
  c4_depender_recooked_in_place 20 exSt 1 3 exA exC [] [] []
    (Storage.mk [(1, exA), (2, exB), (3, { exC with version := 1 })] [])
    [3] [3] [3] [Event.mutateAsset 3]
    (by decide) (by decide) (by decide) (by decide) (by decide)

/-! ### C3: what the per-pass visited set does and does not prevent -/

/-- Counterexample to C3 as stated: in the diamond where handle 3
depends on the two changed dependees 1 and 2, one pass re-cooks and
re-mutates identity 3 once per dependee — twice in total, its version
advancing by two — even though the visited set admitted it to the
changed queue only once. -/
theorem c3_counterexample_diamond_recooked_twice :
    drainChanged 20 20 exSt [1, 2] [] [] =
      .ok (Storage.mk [(1, exA), (2, exB), (3, { exC with version := 2 })] [],
        [3],
        [Event.mutateAsset 3, Event.mutateAsset 3]) ∧
    List.count (Event.mutateAsset 3)
      [Event.mutateAsset 3, Event.mutateAsset 3] = 2 ∧
    exC.version + 2 = 2 := by
  decide

/-- The collection loop inserts a handle into `visited` exactly when it
pushes it onto the changed queue, so the gating invariant (distinct
visited set, distinct push log contained in the visited set) is
preserved. -/
theorem collectUpdates_gating (cookFuel : Nat)
    (committed : List (Nat × Prefab)) :
    ∀ (ws vis q pushed : List Nat) (ups : List (Nat × Cooked))
      (vis2 q2 pushed2 : List Nat),
      collectUpdates cookFuel committed ws vis q pushed =
        .ok (ups, vis2, q2, pushed2) →
      vis.Nodup → pushed.Nodup → (∀ x ∈ pushed, x ∈ vis) →
      vis2.Nodup ∧ pushed2.Nodup ∧ ∀ x ∈ pushed2, x ∈ vis2 := by
  intro ws
  induction ws with
  | nil =>
    intro vis q pushed ups vis2 q2 pushed2 h hv hp hsub
    simp only [collectUpdates, Res.ok.injEq, Prod.mk.injEq] at h
    obtain ⟨-, hvis, -, hpush⟩ := h
    subst hvis
    subst hpush
    exact ⟨hv, hp, hsub⟩
  | cons w ws ih =>
    intro vis q pushed ups vis2 q2 pushed2 h hv hp hsub
    simp only [collectUpdates] at h
    cases hsw : sget committed w with
    | none =>
      simp only [hsw] at h
      exact ih _ _ _ _ _ _ _ h hv hp hsub
    | some p =>
      simp only [hsw] at h
      cases hcp : cook_prefab committed p cookFuel with
      | ok cooked =>
        simp only [hcp] at h
        by_cases hvmem : w ∈ vis
        · simp only [if_pos hvmem] at h
          cases hrec : collectUpdates cookFuel committed ws vis q pushed with
          | ok out =>
            obtain ⟨ups3, vis3, q3, pushed3⟩ := out
            simp only [hrec, Res.ok.injEq, Prod.mk.injEq] at h
            obtain ⟨-, hvis, -, hpush⟩ := h
            subst hvis
            subst hpush
            exact ih _ _ _ _ _ _ _ hrec hv hp hsub
          | panicked => simp only [hrec] at h; exact Res.noConfusion h
          | fuelOut => simp only [hrec] at h; exact Res.noConfusion h
        · simp only [if_neg hvmem] at h
          cases hrec : collectUpdates cookFuel committed ws (w :: vis)
              (q ++ [w]) (pushed ++ [w]) with
          | ok out =>
            obtain ⟨ups3, vis3, q3, pushed3⟩ := out
            simp only [hrec, Res.ok.injEq, Prod.mk.injEq] at h
            obtain ⟨-, hvis, -, hpush⟩ := h
            subst hvis
            subst hpush
            refine ih _ _ _ _ _ _ _ hrec (List.nodup_cons.mpr ⟨hvmem, hv⟩)
              ?_ ?_
            · have hwp : w ∉ pushed := fun hc => hvmem (hsub w hc)
              simp [List.nodup_append, hp, hwp]
            · intro x hx
              rcases List.mem_append.mp hx with hx | hx
              · exact List.mem_cons_of_mem _ (hsub x hx)
              · simp only [List.mem_singleton] at hx
                subst hx
                exact List.mem_cons_self _ _
          | panicked => simp only [hrec] at h; exact Res.noConfusion h
          | fuelOut => simp only [hrec] at h; exact Res.noConfusion h
      | panicked => simp only [hcp] at h; exact Res.noConfusion h
      | fuelOut => simp only [hcp] at h; exact Res.noConfusion h

/-- The propagator drain preserves the gating invariant through every
iteration. -/
theorem drainChanged_gating (cookFuel : Nat) :
    ∀ (f : Nat) (s : Storage) (cq vis pushed : List Nat) (s2 : Storage)
      (pushed2 : List Nat) (evs : List Event),
      drainChanged cookFuel f s cq vis pushed = .ok (s2, pushed2, evs) →
      vis.Nodup → pushed.Nodup → (∀ x ∈ pushed, x ∈ vis) →
      pushed2.Nodup := by
  intro f
  induction f with
  | zero =>
    intro s cq vis pushed s2 pushed2 evs h
    exact absurd h (by simp [drainChanged])
  | succ f ih =>
    intro s cq vis pushed s2 pushed2 evs h hv hp hsub
    rcases cq with _ | ⟨d, q⟩
    · simp only [drainChanged, Res.ok.injEq, Prod.mk.injEq] at h
      obtain ⟨-, hpush, -⟩ := h
      subst hpush
      exact hp
    simp only [drainChanged] at h
    cases hit : changedIter cookFuel s d vis q pushed with
    | ok out =>
      obtain ⟨s3, vis3, q3, pushed3, evs3⟩ := out
      simp only [hit] at h
      have hinv : vis3.Nodup ∧ pushed3.Nodup ∧ ∀ x ∈ pushed3, x ∈ vis3 := by
        simp only [changedIter] at hit
        cases hcol : collectUpdates cookFuel s.committed
            (match s.get_for_load_handle d with
             | none => []
             | some p => p.dependers) vis q pushed with
        | ok out2 =>
          obtain ⟨ups, vis4, q4, pushed4⟩ := out2
          simp only [hcol, Res.ok.injEq, Prod.mk.injEq] at hit
          obtain ⟨-, hv4, hq4, hp4, -⟩ := hit
          subst hv4
          subst hp4
          exact collectUpdates_gating cookFuel s.committed _ _ _ _ _ _ _ _
            hcol hv hp hsub
        | panicked => simp only [hcol] at hit; exact Res.noConfusion hit
        | fuelOut => simp only [hcol] at hit; exact Res.noConfusion hit
      cases hrec : drainChanged cookFuel f s3 q3 vis3 pushed3 with
      | ok out2 =>
        obtain ⟨s4, pushed4, evs4⟩ := out2
        simp only [hrec, Res.ok.injEq, Prod.mk.injEq] at h
        obtain ⟨-, hpush, -⟩ := h
        subst hpush
        exact ih s3 q3 vis3 pushed3 s4 pushed4 evs4 hrec hinv.1 hinv.2.1
          hinv.2.2
      | panicked => simp only [hrec] at h; exact Res.noConfusion h
      | fuelOut => simp only [hrec] at h; exact Res.noConfusion h
    | panicked => simp only [hit] at h; exact Res.noConfusion h
    | fuelOut => simp only [hit] at h; exact Res.noConfusion h

/-- C3 amended: within one `process` pass the visited set prevents the
same identity from being re-enqueued onto the changed queue more than
once — the log of handles pushed by the propagator has no duplicates —
but it does not prevent a depender reachable from two changed dependees
from being re-cooked and re-mutated once per dependee (see the
counterexample). -/
theorem c3_visited_gates_scheduling_once (cookFuel f : Nat) (s : Storage)
    (cq : List Nat) (s2 : Storage) (pushed : List Nat) (evs : List Event)
    (h : drainChanged cookFuel f s cq [] [] = .ok (s2, pushed, evs)) :
    pushed.Nodup :=
  drainChanged_gating cookFuel f s cq [] [] s2 pushed evs h List.nodup_nil
    List.nodup_nil (fun x hx => absurd hx (List.not_mem_nil x))

/-- Witness for the amended C3 on the diamond input: handle 3 is pushed
only once even though two dependees reach it. -/
theorem c3_visited_gates_scheduling_once_witness : List.Nodup [3] :=
  c3_visited_gates_scheduling_once 20 20 exSt [1, 2]
    (Storage.mk [(1, exA), (2, exB), (3, { exC with version := 2 })] [])
    [3] [Event.mutateAsset 3, Event.mutateAsset 3] (by decide)

/-! ### C7: missing dependencies are skipped, the cook degrades gracefully -/

/-- The handles of a dependency list that resolve in storage. -/
def mfilter (committed : List (Nat × Prefab)) (l : List Nat) : List Nat :=
  l.filter fun h => (sget committed h).isSome

/-- A missing head is dropped by the resolvable filter. -/
theorem mfilter_cons_none (committed : List (Nat × Prefab)) (h : Nat)
    (t : List Nat) (hs : sget committed h = none) :
    mfilter committed (h :: t) = mfilter committed t := by
  simp [mfilter, List.filter_cons, hs]

/-- A resolvable head is kept by the resolvable filter. -/
theorem mfilter_cons_some (committed : List (Nat × Prefab)) (h : Nat)
    (t : List Nat) (p : Prefab) (hs : sget committed h = some p) :
    mfilter committed (h :: t) = h :: mfilter committed t := by
  simp [mfilter, List.filter_cons, hs]

/-- The resolvable filter is idempotent. -/
theorem mfilter_idem (committed : List (Nat × Prefab)) (l : List Nat) :
    mfilter committed (mfilter committed l) = mfilter committed l := by
  simp [mfilter, List.filter_filter]

/-- Two cook stacks whose frames carry the same prefab identities and
the same resolvable remainders compute the same successful result:
unresolvable handles are only ever logged and skipped. -/
theorem cookAux_filter_sim (committed : List (Nat × Prefab)) :
    ∀ (f : Nat) (S1 : List (Prefab × List Nat)) (O L R : List Nat),
      cookAux committed f S1 O L = .ok R →
      ∀ S2 : List (Prefab × List Nat),
        List.Forall₂ (fun a b : Prefab × List Nat =>
          a.1.raw_prefab.prefab_id = b.1.raw_prefab.prefab_id ∧
          mfilter committed a.2 = mfilter committed b.2) S1 S2 →
      ∃ f2, cookAux committed f2 S2 O L = .ok R := by
  intro f
  induction f with
  | zero =>
    intro S1 O L R h
    exact absurd h (by simp [cookAux])
  | succ f ihf =>
    intro S1 O L R h S2 hrel
    rcases S1 with _ | ⟨⟨p1, r1⟩, T1⟩
    · cases hrel
      refine ⟨1, ?_⟩
      simpa [cookAux] using h
    rcases hrel with - | ⟨⟨hid, hmf⟩, htail⟩
    rename_i p2r2 T2
    obtain ⟨p2, r2⟩ := p2r2
    simp only at hid hmf
    revert hmf
    induction r2 with
    | nil =>
      intro hmf
      rcases r1 with _ | ⟨h1, t1⟩
      · simp only [cookAux] at h
        obtain ⟨f2, hf2⟩ := ihf _ _ _ _ h T2 htail
        refine ⟨f2 + 1, ?_⟩
        simp only [cookAux, ← hid]
        exact hf2
      · cases hs1 : sget committed h1 with
        | none =>
          simp only [cookAux, hs1] at h
          have hmf2 : mfilter committed t1 = mfilter committed [] := by
            rw [← hmf, mfilter_cons_none committed h1 t1 hs1]
          exact ihf _ _ _ _ h ((p2, ([] : List Nat)) :: T2)
            (List.Forall₂.cons ⟨hid, hmf2⟩ htail)
        | some next =>
          rw [mfilter_cons_some committed h1 t1 next hs1] at hmf
          simp [mfilter] at hmf
    | cons h2 t2 iht =>
      intro hmf
      cases hs2 : sget committed h2 with
      | none =>
        have hmf2 : mfilter committed r1 = mfilter committed t2 := by
          rw [hmf, mfilter_cons_none committed h2 t2 hs2]
        obtain ⟨f2, hf2⟩ := iht hmf2
        refine ⟨f2 + 1, ?_⟩
        simp only [cookAux, hs2]
        exact hf2
      | some next =>
        rcases r1 with _ | ⟨h1, t1⟩
        · rw [mfilter_cons_some committed h2 t2 next hs2] at hmf
          simp [mfilter] at hmf
        cases hs1 : sget committed h1 with
        | none =>
          simp only [cookAux, hs1] at h
          have hmf2 : mfilter committed t1 = mfilter committed (h2 :: t2) := by
            rw [← hmf, mfilter_cons_none committed h1 t1 hs1]
          exact ihf _ _ _ _ h ((p2, h2 :: t2) :: T2)
            (List.Forall₂.cons ⟨hid, hmf2⟩ htail)
        | some next1 =>
          rw [mfilter_cons_some committed h1 t1 next1 hs1,
            mfilter_cons_some committed h2 t2 next hs2] at hmf
          injection hmf with hh ht
          subst hh
          rw [hs1] at hs2
          injection hs2 with hnext
          subst hnext
          simp only [cookAux, hs1] at h
          by_cases hm : next1.raw_prefab.prefab_id ∈ L
          · rw [if_pos hm] at h
            obtain ⟨f2, hf2⟩ := ihf _ _ _ _ h ((p2, t2) :: T2)
              (List.Forall₂.cons ⟨hid, ht⟩ htail)
            refine ⟨f2 + 1, ?_⟩
            simp only [cookAux, hs1, if_pos hm]
            exact hf2
          · rw [if_neg hm] at h
            cases hnd : next1.dependencies with
            | none =>
              rw [hnd] at h
              exact absurd h (by simp)
            | some nd =>
              rw [hnd] at h
              obtain ⟨f2, hf2⟩ := ihf _ _ _ _ h
                ((next1, nd) :: (p2, t2) :: T2)
                (List.Forall₂.cons ⟨rfl, rfl⟩
                  (List.Forall₂.cons ⟨hid, ht⟩ htail))
              refine ⟨f2 + 1, ?_⟩
              simp only [cookAux, hs1, if_neg hm, hnd]
              exact hf2

/-- C7: a dependency handle that does not resolve in the storage
snapshot is skipped and traversal continues (first part); consequently,
whenever the cook of the fully resolvable part of the dependency list
succeeds, the cook over the full list with its missing handles present
completes with the same result — no error and no panic arises from the
missing dependencies (second part). -/
theorem c7_missing_dependency_degrades (committed : List (Nat × Prefab)) :
    (∀ (f : Nat) (p : Prefab) (h : Nat) (t : List Nat)
        (stk : List (Prefab × List Nat)) (O L : List Nat),
      sget committed h = none →
      cookAux committed (f + 1) ((p, h :: t) :: stk) O L =
        cookAux committed f ((p, t) :: stk) O L) ∧
    (∀ (p : Prefab) (deps : List Nat) (f : Nat) (R : List Nat),
      p.dependencies = some deps →
      cook_prefab committed (withDeps p (mfilter committed deps)) f = .ok R →
      ∃ f2, cook_prefab committed p f2 = .ok R) := by
  constructor
  · intro f p h t stk O L hs
    simp [cookAux, hs]
  · intro p deps f R hdeps hcook
    simp only [cook_prefab, withDeps] at hcook
    obtain ⟨f2, hf2⟩ := cookAux_filter_sim committed f _ _ _ _ hcook
      [(p, deps)] (List.Forall₂.cons ⟨rfl, mfilter_idem committed deps⟩
        List.Forall₂.nil)
    refine ⟨f2, ?_⟩
    simp only [cook_prefab, hdeps]
    exact hf2

/-- A prefab referencing handle 99, which is absent from the example
storage, next to the two resolvable leaves. -/
def exD : Prefab :=
  { raw_prefab := { prefab_id := 15, prefab_refs := [] },
    dependencies := some [1, 99, 2], prefab := none, dependers := [],
    version := 0 }

/-- Witness for C7 at concrete inputs: the skip step on the missing
handle 99 and the degraded cook of `exD`, which succeeds despite it. -/
theorem c7_missing_dependency_degrades_witness :
    cookAux exSt.committed 6 [(exD, [99])] [11] [11] =
      cookAux exSt.committed 5 [(exD, [])] [11] [11] ∧
    ∃ f2, cook_prefab exSt.committed exD f2 = .ok [11, 12, 15] := by
  refine ⟨(c7_missing_dependency_degrades exSt.committed).1 5 exD 99 []
    [] [11] [11] (by decide), ?_⟩
  exact (c7_missing_dependency_degrades exSt.committed).2 exD [1, 99, 2] 20
    [11, 12, 15] rfl (by decide)

/-! ### C2: the cook order is a topological order of the closure -/

/-- The records the cook traversal can reach: the root being cooked and
the records stored in the committed snapshot. -/
def Good (committed : List (Nat × Prefab)) (root : Prefab) (p : Prefab) :
    Prop :=
  p = root ∨ ∃ h, sget committed h = some p

/-- The dependency edge relation on prefab identities, as observed by
the traversal: identity `x` depends on identity `y` when some reachable
record with identity `x` has a dependency handle resolving to a record
with identity `y`. -/
def edge (committed : List (Nat × Prefab)) (root : Prefab) (x y : Nat) :
    Prop :=
  ∃ p, Good committed root p ∧ p.raw_prefab.prefab_id = x ∧
    ∃ deps, p.dependencies = some deps ∧
      ∃ d ∈ deps, ∃ q, sget committed d = some q ∧ q.raw_prefab.prefab_id = y

/-- `R` lists dependencies before dependents: for every reachable record
whose identity is listed, each dependency that resolves in storage is
listed strictly earlier. -/
def TopoOrder (committed : List (Nat × Prefab)) (root : Prefab)
    (R : List Nat) : Prop :=
  ∀ x ∈ R, ∀ a, Good committed root a → a.raw_prefab.prefab_id = x →
    ∀ adeps, a.dependencies = some adeps → ∀ d ∈ adeps, ∀ b,
      sget committed d = some b →
      b.raw_prefab.prefab_id ∈ R ∧
      R.indexOf b.raw_prefab.prefab_id < R.indexOf x

/-- Loop invariant for the consumed prefixes of the dependency stack:
each frame's already-consumed dependency handles resolve only to
identities already in the order or to identities of frames above it
(`above` accumulates the ids of the enclosing frames, top first). -/
def ConsumedOk (committed : List (Nat × Prefab)) (O : List Nat) :
    List Nat → List (Prefab × List Nat) → Prop
  | _, [] => True
  | above, (p, rem) :: stk =>
    (∃ full pre, p.dependencies = some full ∧ full = pre ++ rem ∧
      ∀ d ∈ pre, ∀ b, sget committed d = some b →
        b.raw_prefab.prefab_id ∈ O ∨ b.raw_prefab.prefab_id ∈ above) ∧
    ConsumedOk committed O (p.raw_prefab.prefab_id :: above) stk

/-- The full invariant of the cook loop. -/
structure CookInv (committed : List (Nat × Prefab)) (root : Prefab)
    (rank : Nat → Nat) (S : List (Prefab × List Nat)) (O L : List Nat) :
    Prop where
  lookup_eq : L = O.reverse
  order_nodup : O.Nodup
  ranks : S.Pairwise fun a b =>
    rank a.1.raw_prefab.prefab_id < rank b.1.raw_prefab.prefab_id
  frames_good : ∀ fr ∈ S, Good committed root fr.1
  stack_order_disjoint : ∀ fr ∈ S, fr.1.raw_prefab.prefab_id ∉ O
  consumed : ConsumedOk committed O [] S
  topo : TopoOrder committed root O

/-- Fuel cost of the live stack: one step per remaining handle plus the
final pop of each frame. -/
def stackCost (S : List (Prefab × List Nat)) : Nat :=
  (S.map fun fr => fr.2.length + 1).sum

/-- All identities the traversal can ever push. -/
def allIds (committed : List (Nat × Prefab)) (root : Prefab) : Finset Nat :=
  insert root.raw_prefab.prefab_id
    (committed.map fun e => e.2.raw_prefab.prefab_id).toFinset

/-- Identities not yet ordered and not on the stack: each can still be
pushed at most once. -/
def poolF (committed : List (Nat × Prefab)) (root : Prefab)
    (S : List (Prefab × List Nat)) (O : List Nat) : Finset Nat :=
  (allIds committed root).filter fun x =>
    x ∉ O ∧ x ∉ S.map fun fr => fr.1.raw_prefab.prefab_id

/-- Upper bound on the dependency list length of any reachable record. -/
def Dmax (committed : List (Nat × Prefab)) (root : Prefab) : Nat :=
  (committed.map fun e => (e.2.dependencies.getD []).length).foldr Nat.max
    ((root.dependencies.getD []).length)

/-- Strictly decreasing measure of the cook loop. -/
def cookMeasure (committed : List (Nat × Prefab)) (root : Prefab)
    (S : List (Prefab × List Nat)) (O : List Nat) : Nat :=
  stackCost S + (poolF committed root S O).card * (Dmax committed root + 2)

/-- The fold seed bounds a maximum fold. -/
theorem le_foldr_max_init (l : List Nat) (init : Nat) :
    init ≤ l.foldr Nat.max init := by
  induction l with
  | nil => exact Nat.le_refl init
  | cons a t ih => exact Nat.le_trans ih (Nat.le_max_right a _)

/-- Every member bounds into a maximum fold. -/
theorem le_foldr_max_mem (l : List Nat) (init x : Nat) (hx : x ∈ l) :
    x ≤ l.foldr Nat.max init := by
  induction l with
  | nil => cases hx
  | cons a t ih =>
    rcases List.mem_cons.mp hx with h | h
    · subst h; exact Nat.le_max_left x _
    · exact Nat.le_trans (ih h) (Nat.le_max_right a _)

/-- The dependency list of any reachable record is bounded by `Dmax`. -/
theorem deps_le_Dmax (committed : List (Nat × Prefab)) (root : Prefab)
    (p : Prefab) (deps : List Nat) (hg : Good committed root p)
    (hd : p.dependencies = some deps) :
    deps.length ≤ Dmax committed root := by
  rcases hg with hg | ⟨h, hg⟩
  · subst hg
    have : (p.dependencies.getD []).length = deps.length := by rw [hd]; rfl
    rw [Dmax, ← this]
    exact le_foldr_max_init _ _
  · have hmem : (p.dependencies.getD []).length ∈
        committed.map fun e => (e.2.dependencies.getD []).length := by
      have := sget_mem committed h p hg
      obtain ⟨e, he, hep⟩ := List.mem_map.mp this
      exact List.mem_map.mpr ⟨e, he, by rw [hep]⟩
    have : (p.dependencies.getD []).length = deps.length := by rw [hd]; rfl
    rw [Dmax, ← this]
    exact le_foldr_max_mem _ _ _ hmem

/-- Weakening of the consumed-prefix invariant under any growth of the
order and above sets. -/
theorem consumedOk_mono (committed : List (Nat × Prefab)) :
    ∀ (stk : List (Prefab × List Nat)) (O O2 above above2 : List Nat),
      (∀ x, x ∈ O ∨ x ∈ above → x ∈ O2 ∨ x ∈ above2) →
      ConsumedOk committed O above stk →
      ConsumedOk committed O2 above2 stk := by
  intro stk
  induction stk with
  | nil => intro O O2 above above2 _ _; trivial
  | cons fr stk ih =>
    intro O O2 above above2 himp hc
    obtain ⟨p, rem⟩ := fr
    obtain ⟨⟨full, pre, hfull, hpre, hcond⟩, hrest⟩ := hc
    refine ⟨⟨full, pre, hfull, hpre, ?_⟩, ?_⟩
    · intro d hd b hb
      exact himp _ (hcond d hd b hb)
    · refine ih O O2 _ _ ?_ hrest
      intro x hx
      rcases hx with hx | hx
      · rcases himp x (Or.inl hx) with hx2 | hx2
        · exact Or.inl hx2
        · exact Or.inr (List.mem_cons_of_mem _ hx2)
      · rcases List.mem_cons.mp hx with hx | hx
        · exact Or.inr (by rw [hx]; exact List.mem_cons_self _ _)
        · rcases himp x (Or.inr hx) with hx2 | hx2
          · exact Or.inl hx2
          · exact Or.inr (List.mem_cons_of_mem _ hx2)

/-- The pool ignores the remainder lists of the stack frames. -/
theorem poolF_frame_rem (committed : List (Nat × Prefab)) (root : Prefab)
    (p : Prefab) (r1 r2 : List Nat) (stk : List (Prefab × List Nat))
    (O : List Nat) :
    poolF committed root ((p, r1) :: stk) O =
      poolF committed root ((p, r2) :: stk) O := rfl

/-- Popping a frame moves its identity from the stack to the order and
leaves the pool unchanged. -/
theorem poolF_pop (committed : List (Nat × Prefab)) (root : Prefab)
    (p : Prefab) (rem : List Nat) (stk : List (Prefab × List Nat))
    (O : List Nat) :
    poolF committed root stk (O ++ [p.raw_prefab.prefab_id]) =
      poolF committed root ((p, rem) :: stk) O := by
  unfold poolF
  ext x
  simp only [Finset.mem_filter, List.mem_append, List.mem_cons, List.map_cons,
    List.mem_singleton]
  tauto

/-- Pushing a frame removes its identity from the pool. -/
theorem poolF_push_erase (committed : List (Nat × Prefab)) (root : Prefab)
    (next p : Prefab) (nd r1 r2 : List Nat)
    (stk : List (Prefab × List Nat)) (O : List Nat) :
    poolF committed root ((next, nd) :: (p, r2) :: stk) O =
      (poolF committed root ((p, r1) :: stk) O).erase
        next.raw_prefab.prefab_id := by
  unfold poolF
  ext x
  simp only [Finset.mem_erase, Finset.mem_filter, List.map_cons,
    List.mem_cons]
  tauto

/-- Master lemma of the cook loop: from any state satisfying the
invariant, with fuel above the measure, the loop completes and returns a
duplicate-free topological order extending the current one, ending in
the bottom frame's identity. -/
theorem cook_master (committed : List (Nat × Prefab)) (root : Prefab)
    (rank : Nat → Nat)
    (hrank : ∀ x y, edge committed root x y → rank y < rank x)
    (hinj : ∀ p q, Good committed root p → Good committed root q →
      p.raw_prefab.prefab_id = q.raw_prefab.prefab_id → p = q)
    (hdeps : ∀ p, Good committed root p → p.dependencies.isSome = true) :
    ∀ (f : Nat) (S : List (Prefab × List Nat)) (O L : List Nat),
      CookInv committed root rank S O L →
      cookMeasure committed root S O < f →
      ∃ R, cookAux committed f S O L = .ok R ∧ R.Nodup ∧
        TopoOrder committed root R ∧ (S = [] → R = O) ∧
        ∀ fr, S.getLast? = some fr →
          R.getLast? = some fr.1.raw_prefab.prefab_id := by
  intro f
  induction f with
  | zero => intro S O L _ hmu; omega
  | succ f ih =>
    intro S O L hinv hmu
    rcases S with _ | ⟨⟨p, rem⟩, stk⟩
    · refine ⟨O, by simp [cookAux], hinv.order_nodup, hinv.topo,
        fun _ => rfl, ?_⟩
      intro fr hfr
      simp at hfr
    rcases rem with _ | ⟨h, t⟩
    · -- pop: the frame is exhausted, append its identity to the order
      have hgood_p : Good committed root p :=
        hinv.frames_good (p, []) (List.mem_cons_self _ _)
      have hpid_notin : p.raw_prefab.prefab_id ∉ O :=
        hinv.stack_order_disjoint (p, []) (List.mem_cons_self _ _)
      obtain ⟨⟨full, pre, hfull, hpre, hcond⟩, hcons_rest⟩ := hinv.consumed
      have hpre2 : full = pre := by simpa using hpre
      have hdeps_in_O : ∀ d ∈ full, ∀ b, sget committed d = some b →
          b.raw_prefab.prefab_id ∈ O := by
        intro d hd b hb
        rcases hcond d (by rw [← hpre2]; exact hd) b hb with h1 | h1
        · exact h1
        · simp at h1
      have hranks_head : ∀ b ∈ stk,
          rank p.raw_prefab.prefab_id < rank b.1.raw_prefab.prefab_id :=
        (List.pairwise_cons.mp hinv.ranks).1
      have hinv2 : CookInv committed root rank stk
          (O ++ [p.raw_prefab.prefab_id])
          (p.raw_prefab.prefab_id :: L) := by
        refine ⟨?_, ?_, hinv.ranks.of_cons, ?_, ?_, ?_, ?_⟩
        · rw [hinv.lookup_eq]
          simp
        · rw [List.nodup_append]
          refine ⟨hinv.order_nodup, List.nodup_singleton _, ?_⟩
          intro a ha hb
          simp only [List.mem_singleton] at hb
          subst hb
          exact hpid_notin ha
        · intro fr hfr
          exact hinv.frames_good fr (List.mem_cons_of_mem _ hfr)
        · intro fr hfr hmem
          rcases List.mem_append.mp hmem with hmem | hmem
          · exact hinv.stack_order_disjoint fr (List.mem_cons_of_mem _ hfr)
              hmem
          · simp only [List.mem_singleton] at hmem
            have := hranks_head fr hfr
            rw [hmem] at this
            exact absurd this (Nat.lt_irrefl _)
        · refine consumedOk_mono committed stk O _ _ _ ?_ hcons_rest
          intro x hx
          rcases hx with hx | hx
          · exact Or.inl (List.mem_append_left _ hx)
          · simp only [List.mem_singleton] at hx
            exact Or.inl (List.mem_append_right _ (by simp [hx]))
        · intro x hx a hga hax adeps hadeps d hd b hb
          rcases List.mem_append.mp hx with hxO | hxp
          · obtain ⟨hbO, hidx⟩ := hinv.topo x hxO a hga hax adeps hadeps
              d hd b hb
            refine ⟨List.mem_append_left _ hbO, ?_⟩
            rw [List.indexOf_append_of_mem hbO,
              List.indexOf_append_of_mem hxO]
            exact hidx
          · simp only [List.mem_singleton] at hxp
            have hap : a = p := by
              refine hinj a p hga hgood_p ?_
              rw [hax, hxp]
            subst hap
            rw [hfull] at hadeps
            injection hadeps with hadeps
            subst hadeps
            have hbO := hdeps_in_O d hd b hb
            refine ⟨List.mem_append_left _ hbO, ?_⟩
            rw [List.indexOf_append_of_mem hbO, hxp,
              List.indexOf_append_of_not_mem hpid_notin]
            have hlt := List.indexOf_lt_length.mpr hbO
            simp only [List.indexOf_cons_self]
            omega
      have hmu2 : cookMeasure committed root stk
          (O ++ [p.raw_prefab.prefab_id]) < f := by
        have hpool := poolF_pop committed root p ([] : List Nat) stk O
        simp only [cookMeasure, hpool, stackCost, List.map_cons,
          List.sum_cons] at hmu ⊢
        omega
      obtain ⟨R, hR, hnodup, htopo, hSR, hlast⟩ := ih stk _ _ hinv2 hmu2
      refine ⟨R, ?_, hnodup, htopo, ?_, ?_⟩
      · simp only [cookAux]
        exact hR
      · intro hcontra
        exact absurd hcontra (by simp)
      · intro fr hfr
        rcases stk with _ | ⟨g, stk2⟩
        · simp only [List.getLast?_singleton, Option.some.injEq] at hfr
          rw [hSR rfl, ← hfr]
          exact List.getLast?_concat _
        · rw [List.getLast?_cons_cons] at hfr
          exact hlast fr hfr
    · cases hs : sget committed h with
      | none =>
        -- skip: the dependency handle does not resolve in storage
        obtain ⟨⟨full, pre, hfull, hpre, hcond⟩, hcons_rest⟩ := hinv.consumed
        have hinv2 : CookInv committed root rank ((p, t) :: stk) O L := by
          refine ⟨hinv.lookup_eq, hinv.order_nodup, ?_, ?_, ?_, ?_,
            hinv.topo⟩
          · rcases List.pairwise_cons.mp hinv.ranks with ⟨hhead, htail⟩
            exact List.pairwise_cons.mpr ⟨fun b hb => hhead b hb, htail⟩
          · intro fr hfr
            rcases List.mem_cons.mp hfr with hfr | hfr
            · subst hfr
              exact hinv.frames_good (p, h :: t) (List.mem_cons_self _ _)
            · exact hinv.frames_good fr (List.mem_cons_of_mem _ hfr)
          · intro fr hfr
            rcases List.mem_cons.mp hfr with hfr | hfr
            · subst hfr
              exact hinv.stack_order_disjoint (p, h :: t)
                (List.mem_cons_self _ _)
            · exact hinv.stack_order_disjoint fr (List.mem_cons_of_mem _ hfr)
          · refine ⟨⟨full, pre ++ [h], hfull, by rw [hpre]; simp, ?_⟩,
              hcons_rest⟩
            intro d hd b hb
            rcases List.mem_append.mp hd with hd | hd
            · exact hcond d hd b hb
            · simp only [List.mem_singleton] at hd
              subst hd
              rw [hs] at hb
              exact absurd hb (by simp)
        have hmu2 : cookMeasure committed root ((p, t) :: stk) O < f := by
          have hpool := poolF_frame_rem committed root p t (h :: t) stk O
          simp only [cookMeasure, hpool, stackCost, List.map_cons,
            List.sum_cons, List.length_cons] at hmu ⊢
          omega
        obtain ⟨R, hR, hnodup, htopo, hSR, hlast⟩ := ih _ _ _ hinv2 hmu2
        refine ⟨R, ?_, hnodup, htopo, ?_, ?_⟩
        · simp only [cookAux, hs]
          exact hR
        · intro hcontra
          exact absurd hcontra (by simp)
        · intro fr hfr
          rcases stk with _ | ⟨g, stk2⟩
          · simp only [List.getLast?_singleton, Option.some.injEq] at hfr
            have h2 := hlast (p, t) (by simp)
            subst hfr
            exact h2
          · rw [List.getLast?_cons_cons] at hfr
            refine hlast fr ?_
            rw [List.getLast?_cons_cons]
            exact hfr
      | some next =>
        by_cases hm : next.raw_prefab.prefab_id ∈ L
        · -- skip: the dependency already sits in the lookup
          obtain ⟨⟨full, pre, hfull, hpre, hcond⟩, hcons_rest⟩ :=
            hinv.consumed
          have hnextO : next.raw_prefab.prefab_id ∈ O := by
            rw [hinv.lookup_eq] at hm
            exact List.mem_reverse.mp hm
          have hinv2 : CookInv committed root rank ((p, t) :: stk) O L := by
            refine ⟨hinv.lookup_eq, hinv.order_nodup, ?_, ?_, ?_, ?_,
              hinv.topo⟩
            · rcases List.pairwise_cons.mp hinv.ranks with ⟨hhead, htail⟩
              exact List.pairwise_cons.mpr ⟨fun b hb => hhead b hb, htail⟩
            · intro fr hfr
              rcases List.mem_cons.mp hfr with hfr | hfr
              · subst hfr
                exact hinv.frames_good (p, h :: t) (List.mem_cons_self _ _)
              · exact hinv.frames_good fr (List.mem_cons_of_mem _ hfr)
            · intro fr hfr
              rcases List.mem_cons.mp hfr with hfr | hfr
              · subst hfr
                exact hinv.stack_order_disjoint (p, h :: t)
                  (List.mem_cons_self _ _)
              · exact hinv.stack_order_disjoint fr
                  (List.mem_cons_of_mem _ hfr)
            · refine ⟨⟨full, pre ++ [h], hfull, by rw [hpre]; simp, ?_⟩,
                hcons_rest⟩
              intro d hd b hb
              rcases List.mem_append.mp hd with hd | hd
              · exact hcond d hd b hb
              · simp only [List.mem_singleton] at hd
                subst hd
                rw [hs] at hb
                injection hb with hb
                subst hb
                exact Or.inl hnextO
          have hmu2 : cookMeasure committed root ((p, t) :: stk) O < f := by
            have hpool := poolF_frame_rem committed root p t (h :: t) stk O
            simp only [cookMeasure, hpool, stackCost, List.map_cons,
              List.sum_cons, List.length_cons] at hmu ⊢
            omega
          obtain ⟨R, hR, hnodup, htopo, hSR, hlast⟩ := ih _ _ _ hinv2 hmu2
          refine ⟨R, ?_, hnodup, htopo, ?_, ?_⟩
          · simp only [cookAux, hs, if_pos hm]
            exact hR
          · intro hcontra
            exact absurd hcontra (by simp)
          · intro fr hfr
            rcases stk with _ | ⟨g, stk2⟩
            · simp only [List.getLast?_singleton, Option.some.injEq] at hfr
              have h2 := hlast (p, t) (by simp)
              subst hfr
              exact h2
            · rw [List.getLast?_cons_cons] at hfr
              refine hlast fr ?_
              rw [List.getLast?_cons_cons]
              exact hfr
        · -- push: first visit of the dependency
          have hgood_p : Good committed root p :=
            hinv.frames_good (p, h :: t) (List.mem_cons_self _ _)
          have hgood_next : Good committed root next := Or.inr ⟨h, hs⟩
          obtain ⟨nd, hnd⟩ := Option.isSome_iff_exists.mp
            (hdeps next hgood_next)
          obtain ⟨⟨full, pre, hfull, hpre, hcond⟩, hcons_rest⟩ :=
            hinv.consumed
          have hhin : h ∈ full := by
            rw [hpre]
            exact List.mem_append_right _ (List.mem_cons_self _ _)
          have hedge : edge committed root p.raw_prefab.prefab_id
              next.raw_prefab.prefab_id :=
            ⟨p, hgood_p, rfl, full, hfull, h, hhin, next, hs, rfl⟩
          have hrank_next : rank next.raw_prefab.prefab_id <
              rank p.raw_prefab.prefab_id := hrank _ _ hedge
          have hranks_head : ∀ b ∈ stk,
              rank p.raw_prefab.prefab_id < rank b.1.raw_prefab.prefab_id :=
            (List.pairwise_cons.mp hinv.ranks).1
          have hnextO : next.raw_prefab.prefab_id ∉ O := by
            intro hc
            exact hm (by rw [hinv.lookup_eq]; exact List.mem_reverse.mpr hc)
          have hnext_not_stack : next.raw_prefab.prefab_id ∉
              ((p, h :: t) :: stk).map fun fr => fr.1.raw_prefab.prefab_id := by
            intro hc
            obtain ⟨fr, hfr, hfrid⟩ := List.mem_map.mp hc
            rcases List.mem_cons.mp hfr with hfr | hfr
            · subst hfr
              simp only at hfrid
              rw [hfrid] at hrank_next
              exact absurd hrank_next (Nat.lt_irrefl _)
            · have h1 := hranks_head fr hfr
              rw [hfrid] at h1
              exact absurd (Nat.lt_trans hrank_next h1) (Nat.lt_irrefl _)
          have hinv2 : CookInv committed root rank
              ((next, nd) :: (p, t) :: stk) O L := by
            refine ⟨hinv.lookup_eq, hinv.order_nodup, ?_, ?_, ?_, ?_,
              hinv.topo⟩
            · refine List.pairwise_cons.mpr ⟨?_, ?_⟩
              · intro b hb
                rcases List.mem_cons.mp hb with hb | hb
                · subst hb
                  exact hrank_next
                · exact Nat.lt_trans hrank_next (hranks_head b hb)
              · exact List.pairwise_cons.mpr
                  ⟨fun b hb => hranks_head b hb, hinv.ranks.of_cons⟩
            · intro fr hfr
              rcases List.mem_cons.mp hfr with hfr | hfr
              · subst hfr
                exact hgood_next
              rcases List.mem_cons.mp hfr with hfr | hfr
              · subst hfr
                exact hgood_p
              · exact hinv.frames_good fr (List.mem_cons_of_mem _ hfr)
            · intro fr hfr
              rcases List.mem_cons.mp hfr with hfr | hfr
              · subst hfr
                exact hnextO
              rcases List.mem_cons.mp hfr with hfr | hfr
              · subst hfr
                exact hinv.stack_order_disjoint (p, h :: t)
                  (List.mem_cons_self _ _)
              · exact hinv.stack_order_disjoint fr
                  (List.mem_cons_of_mem _ hfr)
            · refine ⟨⟨nd, [], hnd, by simp,
                fun d hd => absurd hd (List.not_mem_nil d)⟩,
                ⟨full, pre ++ [h], hfull, by rw [hpre]; simp, ?_⟩, ?_⟩
              · intro d hd b hb
                rcases List.mem_append.mp hd with hd | hd
                · rcases hcond d hd b hb with h1 | h1
                  · exact Or.inl h1
                  · simp at h1
                · simp only [List.mem_singleton] at hd
                  subst hd
                  rw [hs] at hb
                  injection hb with hb
                  subst hb
                  exact Or.inr (by simp)
              · refine consumedOk_mono committed stk O O _ _ ?_ hcons_rest
                intro x hx
                rcases hx with hx | hx
                · exact Or.inl hx
                · simp only [List.mem_singleton] at hx
                  exact Or.inr (by simp [hx])
          have hmem_pool : next.raw_prefab.prefab_id ∈
              poolF committed root ((p, h :: t) :: stk) O := by
            refine Finset.mem_filter.mpr ⟨?_, hnextO, hnext_not_stack⟩
            refine Finset.mem_insert_of_mem ?_
            refine List.mem_toFinset.mpr ?_
            obtain ⟨e, he, hep⟩ := List.mem_map.mp (sget_mem committed h next hs)
            exact List.mem_map.mpr ⟨e, he, by rw [hep]⟩
          have hpoolS2 := poolF_push_erase committed root next p nd (h :: t)
            t stk O
          have hpos : 0 < (poolF committed root ((p, h :: t) :: stk) O).card :=
            Finset.card_pos.mpr ⟨_, hmem_pool⟩
          have hcard2 : (poolF committed root
              ((next, nd) :: (p, t) :: stk) O).card =
              (poolF committed root ((p, h :: t) :: stk) O).card - 1 := by
            rw [hpoolS2]
            exact Finset.card_erase_of_mem hmem_pool
          have hndD : nd.length ≤ Dmax committed root :=
            deps_le_Dmax committed root next nd hgood_next hnd
          have hmu2 : cookMeasure committed root
              ((next, nd) :: (p, t) :: stk) O < f := by
            have hprod : (poolF committed root
                ((next, nd) :: (p, t) :: stk) O).card *
                  (Dmax committed root + 2) + (Dmax committed root + 2) =
                (poolF committed root ((p, h :: t) :: stk) O).card *
                  (Dmax committed root + 2) := by
              rw [hcard2]
              have hc := Nat.succ_pred_eq_of_pos hpos
              conv_rhs => rw [← hc]
              rw [Nat.succ_mul, Nat.sub_one]
            simp only [cookMeasure, stackCost, List.map_cons, List.sum_cons,
              List.length_cons] at hmu ⊢
            omega
          obtain ⟨R, hR, hnodup, htopo, hSR, hlast⟩ := ih _ _ _ hinv2 hmu2
          refine ⟨R, ?_, hnodup, htopo, ?_, ?_⟩
          · simp only [cookAux, hs, if_neg hm, hnd]
            exact hR
          · intro hcontra
            exact absurd hcontra (by simp)
          · intro fr hfr
            rcases stk with _ | ⟨g, stk2⟩
            · simp only [List.getLast?_singleton, Option.some.injEq] at hfr
              have h2 := hlast (p, t) (by simp [List.getLast?_cons_cons])
              subst hfr
              exact h2
            · rw [List.getLast?_cons_cons] at hfr
              refine hlast fr ?_
              rw [List.getLast?_cons_cons, List.getLast?_cons_cons]
              exact hfr

/-- C2: over an acyclic closure (witnessed by a rank function decreasing
along dependency edges) whose reachable records all have computed
dependency lists and carry distinct identities, `cook_prefab` terminates
and produces a `prefab_cook_order` that is a topological order of the
closure as observed: each identity appears at most once, every
storage-resolvable dependency of a listed record appears strictly before
it, and the root prefab's identity is appended last. -/
theorem c2_cook_order_topological (committed : List (Nat × Prefab))
    (root : Prefab) (rank : Nat → Nat) (rdeps : List Nat)
    (hrank : ∀ x y, edge committed root x y → rank y < rank x)
    (hinj : ∀ p q, Good committed root p → Good committed root q →
      p.raw_prefab.prefab_id = q.raw_prefab.prefab_id → p = q)
    (hdeps : ∀ p, Good committed root p → p.dependencies.isSome = true)
    (hroot : root.dependencies = some rdeps) :
    ∃ fuel R, cook_prefab committed root fuel = .ok R ∧ R.Nodup ∧
      TopoOrder committed root R ∧
      R.getLast? = some root.raw_prefab.prefab_id := by
  have hinv : CookInv committed root rank [(root, rdeps)] [] [] := by
    refine ⟨rfl, List.nodup_nil, List.pairwise_singleton _ _, ?_, ?_, ?_, ?_⟩
    · intro fr hfr
      rw [List.mem_singleton.mp hfr]
      exact Or.inl rfl
    · intro fr _ hmem
      exact absurd hmem (List.not_mem_nil _)
    · exact ⟨⟨rdeps, [], hroot, by simp,
        fun d hd => absurd hd (List.not_mem_nil d)⟩, trivial⟩
    · intro x hx
      exact absurd hx (List.not_mem_nil x)
  obtain ⟨R, hR, hnodup, htopo, -, hlast⟩ := cook_master committed root rank
    hrank hinj hdeps (cookMeasure committed root [(root, rdeps)] [] + 1)
    [(root, rdeps)] [] [] hinv (Nat.lt_succ_self _)
  refine ⟨cookMeasure committed root [(root, rdeps)] [] + 1, R, ?_, hnodup,
    htopo, ?_⟩
  · simp only [cook_prefab, hroot]
    exact hR
  · exact hlast (root, rdeps) rfl

/-- A root prefab whose single dependency handle 3 resolves to `exC`. -/
def exE : Prefab :=
  { raw_prefab := { prefab_id := 16, prefab_refs := [13] },
    dependencies := some [3], prefab := none, dependers := [], version := 0 }

/-- Characterization of the records reachable from `exE` over the
example storage. -/
theorem exE_good_char (p : Prefab) (hp : Good exSt.committed exE p) :
    p = exE ∨ p = exA ∨ p = exB ∨ p = exC := by
  rcases hp with hp | ⟨hh, hp⟩
  · exact Or.inl hp
  · simp only [exSt, sget] at hp
    split_ifs at hp
    · exact Or.inr (Or.inl (Option.some.inj hp).symm)
    · exact Or.inr (Or.inr (Or.inl (Option.some.inj hp).symm))
    · exact Or.inr (Or.inr (Or.inr (Option.some.inj hp).symm))

/-- Witness for C2 at concrete inputs: cooking `exE` over the example
storage terminates in a duplicate-free topological order ending in 16. -/
theorem c2_cook_order_topological_witness :
    ∃ fuel R, cook_prefab exSt.committed exE fuel = .ok R ∧ R.Nodup ∧
      TopoOrder exSt.committed exE R ∧
      R.getLast? = some exE.raw_prefab.prefab_id := by
  refine c2_cook_order_topological exSt.committed exE
    (fun x => if x = 16 then 2 else if x = 13 then 1 else 0) [3]
    ?_ ?_ ?_ rfl
  · intro x y hedge
    obtain ⟨p, hg, hx, deps, hd, d, hdin, q, hq, hy⟩ := hedge
    subst hx
    subst hy
    rcases exE_good_char p hg with rfl | rfl | rfl | rfl
    · simp only [exE, Option.some.injEq] at hd
      subst hd
      simp only [List.mem_singleton] at hdin
      subst hdin
      have h3 : sget exSt.committed 3 = some exC := by decide
      rw [h3] at hq
      have hqc := (Option.some.inj hq).symm
      subst hqc
      decide
    · simp only [exA, Option.some.injEq] at hd
      subst hd
      exact absurd hdin (List.not_mem_nil d)
    · simp only [exB, Option.some.injEq] at hd
      subst hd
      exact absurd hdin (List.not_mem_nil d)
    · simp only [exC, Option.some.injEq] at hd
      subst hd
      rcases List.mem_cons.mp hdin with hd1 | hd1
      · subst hd1
        have h1 : sget exSt.committed 1 = some exA := by decide
        rw [h1] at hq
        have hqc := (Option.some.inj hq).symm
        subst hqc
        decide
      · simp only [List.mem_singleton] at hd1
        subst hd1
        have h2 : sget exSt.committed 2 = some exB := by decide
        rw [h2] at hq
        have hqc := (Option.some.inj hq).symm
        subst hqc
        decide
  · intro p q hp hq hpq
    rcases exE_good_char p hp with rfl | rfl | rfl | rfl <;>
      rcases exE_good_char q hq with rfl | rfl | rfl | rfl <;>
      first
        | rfl
        | exact absurd hpq (by decide)
  · intro p hp
    rcases exE_good_char p hp with rfl | rfl | rfl | rfl <;> rfl
